import Mathlib

/-!
Verification of the annotation hierarchy traversal subsystem of the
OpenContracts repository (config/graphql/graphene_types.py): the identifier
codec, the tree traversal engine (descendants / full-tree / subtree modes),
and the flattener build_flat_tree.

Modelling conventions:
* A database row of the annotation table (the values "id", "parent_id",
  "raw_text" fetched by the resolvers) is a RawNode; the node population is a
  List RawNode in storage order.
* The recursive CTE (django_cte With.recursive with union all) is modelled by
  cteAcc: the working frontier is repeatedly expanded by joining children, and
  all produced rows are concatenated (UNION ALL keeps duplicates).  SQL
  recursion stops when the frontier is empty; the Lean model uses explicit
  fuel, and fuel = population size is proved sufficient on acyclic data.
* order_by("id") is modelled as List.insertionSort on the id field.
* The upward parent walks (while root.parent_id is not None) are modelled
  with fuel as well, returning none when fuel runs out or a parent row is
  missing; on acyclic, parent-closed data they are proved to succeed.
-/

namespace OpenContracts

/-- A raw annotation row as fetched by the resolvers:
values("id", "parent_id", "raw_text"). -/
structure RawNode where
  id : Nat
  parent_id : Option Nat
  raw_text : String
  deriving DecidableEq, Repr

/-- Value of a decimal digit character. -/
def digitVal (c : Char) : Nat := c.toNat - 48

/-- Decimal digit characters of a natural number, most significant first.
The first argument is fuel; natDigits supplies enough. -/
def natToDigitsAux : Nat → Nat → List Char
  | 0, _ => []
  | fuel + 1, n =>
    if n < 10 then [Nat.digitChar n]
    else natToDigitsAux fuel (n / 10) ++ [Nat.digitChar (n % 10)]

/-- Decimal digit characters of a natural number. -/
def natDigits (n : Nat) : List Char := natToDigitsAux (n + 1) n

/-- Value of a list of decimal digit characters, most significant first. -/
def digitsVal (l : List Char) : Nat :=
  l.foldl (fun acc c => acc * 10 + digitVal c) 0

/-- Modelled from the spec: the identifier codec.  The implementation
(graphql_relay.to_global_id) is not part of the provided sources; per the
spec it deterministically encodes a type tag together with the internal id
into one opaque external string.  The library writes "tag:id" and wraps it
in base64; base64 is a bijection on strings, so the model keeps the
"tag:id" shape. -/
def to_global_id (tag : String) (i : Nat) : String :=
  ⟨tag.data ++ ':' :: natDigits i⟩

/-- Modelled from the spec: the inverse direction of the identifier codec
(graphql_relay.from_global_id), which is not part of the provided sources.
It splits the decoded string back into the type tag and the trailing decimal
internal id, failing (none) when the string does not have that shape. -/
def from_global_id (s : String) : Option (String × Nat) :=
  let r := s.data.reverse
  let ds := r.takeWhile Char.isDigit
  match r.dropWhile Char.isDigit with
  | ':' :: t => if ds.isEmpty then none else some (⟨t.reverse⟩, digitsVal ds.reverse)
  | _ => none

/-- One flattened node emitted by build_flat_tree: the node's global id, its
raw_text, and the global ids of its immediate children within the input
set. -/
structure FlatNode where
  id : String
  raw_text : String
  children : List String
  deriving DecidableEq, Repr

/-- Association-list model of the Python dict id_to_children. -/
abbrev ChildMap := List (Nat × List Nat)

/-- id_to_children.setdefault(k, []).append(v). -/
def setdefaultAppend : ChildMap → Nat → Nat → ChildMap
  | [], k, v => [(k, [v])]
  | (k₀, vs) :: rest, k, v =>
    if k₀ = k then (k₀, vs ++ [v]) :: rest
    else (k₀, vs) :: setdefaultAppend rest k v

/-- id_to_children.get(k, []). -/
def mapGet : ChildMap → Nat → List Nat
  | [], _ => []
  | (k₀, vs) :: rest, k => if k₀ = k then vs else mapGet rest k

/-- One step of the first loop of build_flat_tree.  The guard mirrors the
Python truthiness test "if parent_id:", which rejects both None and 0. -/
def addChild (m : ChildMap) (node : RawNode) : ChildMap :=
  match node.parent_id with
  | some p => if p = 0 then m else setdefaultAppend m p node.id
  | none => m

/-- build_flat_tree: maps every input row to a flat record carrying its
global id, its raw_text, and the global ids of its immediate children found
in the input list. -/
def build_flat_tree (nodes : List RawNode) : List FlatNode :=
  let id_to_children := nodes.foldl addChild []
  nodes.map fun node =>
    { id := to_global_id "AnnotationType" node.id
      raw_text := node.raw_text
      children := (mapGet id_to_children node.id).map (to_global_id "AnnotationType") }

/- ### Codec lemmas -/

theorem digitVal_digitChar {k : Nat} (hk : k < 10) :
    digitVal (Nat.digitChar k) = k := by
  interval_cases k <;> rfl

theorem isDigit_digitChar {k : Nat} (hk : k < 10) :
    (Nat.digitChar k).isDigit = true := by
  interval_cases k <;> rfl

theorem digitsVal_append_singleton (l : List Char) (c : Char) :
    digitsVal (l ++ [c]) = digitsVal l * 10 + digitVal c := by
  simp [digitsVal, List.foldl_append]

theorem digitsVal_natToDigitsAux :
    ∀ fuel n, n < fuel → digitsVal (natToDigitsAux fuel n) = n := by
  intro fuel
  induction fuel with
  | zero => intro n hn; omega
  | succ fuel ih =>
    intro n hn
    by_cases h10 : n < 10
    · simp [natToDigitsAux, h10, digitsVal, digitVal_digitChar h10]
    · have hdiv : n / 10 < n := Nat.div_lt_self (by omega) (by omega)
      have hfuel : n / 10 < fuel := by omega
      have hmod : n % 10 < 10 := Nat.mod_lt _ (by omega)
      simp only [natToDigitsAux, if_neg h10, digitsVal_append_singleton,
        ih _ hfuel, digitVal_digitChar hmod]
      omega

theorem digitsVal_natDigits (n : Nat) : digitsVal (natDigits n) = n :=
  digitsVal_natToDigitsAux (n + 1) n (Nat.lt_succ_self n)

theorem natToDigitsAux_isDigit :
    ∀ fuel n, ∀ c ∈ natToDigitsAux fuel n, c.isDigit = true := by
  intro fuel
  induction fuel with
  | zero => intro n c hc; simp [natToDigitsAux] at hc
  | succ fuel ih =>
    intro n c hc
    by_cases h10 : n < 10
    · simp [natToDigitsAux, h10] at hc
      subst hc; exact isDigit_digitChar h10
    · simp only [natToDigitsAux, if_neg h10, List.mem_append,
        List.mem_singleton] at hc
      rcases hc with hc | hc
      · exact ih _ _ hc
      · subst hc; exact isDigit_digitChar (Nat.mod_lt _ (by omega))

theorem natDigits_isDigit (n : Nat) : ∀ c ∈ natDigits n, c.isDigit = true :=
  natToDigitsAux_isDigit (n + 1) n

theorem natDigits_ne_nil (n : Nat) : natDigits n ≠ [] := by
  unfold natDigits natToDigitsAux
  by_cases h10 : n < 10 <;> simp [h10]

theorem takeWhile_all_append {p : Char → Bool} :
    ∀ (l₁ : List Char) (c₀ : Char) (l₂ : List Char),
      (∀ c ∈ l₁, p c = true) → p c₀ = false →
      (l₁ ++ c₀ :: l₂).takeWhile p = l₁ ∧ (l₁ ++ c₀ :: l₂).dropWhile p = c₀ :: l₂ := by
  intro l₁
  induction l₁ with
  | nil => intro c₀ l₂ _ hc₀; simp [List.takeWhile, List.dropWhile, hc₀]
  | cons a t ih =>
    intro c₀ l₂ hall hc₀
    have ha : p a = true := hall a (List.mem_cons_self a t)
    have ht := ih c₀ l₂ (fun c hc => hall c (List.mem_cons_of_mem a hc)) hc₀
    simp [List.takeWhile, List.dropWhile, ha, ht.1, ht.2]

theorem from_global_id_to_global_id (tag : String) (i : Nat) :
    from_global_id (to_global_id tag i) = some (tag, i) := by
  have hdata : (to_global_id tag i).data = tag.data ++ ':' :: natDigits i := rfl
  have hrev : (to_global_id tag i).data.reverse =
      (natDigits i).reverse ++ ':' :: tag.data.reverse := by
    rw [hdata, List.reverse_append, List.reverse_cons, List.append_assoc]
    simp
  have hall : ∀ c ∈ (natDigits i).reverse, c.isDigit = true := by
    intro c hc
    exact natDigits_isDigit i c (List.mem_reverse.mp hc)
  have hcolon : (':' : Char).isDigit = false := rfl
  have htw := takeWhile_all_append (natDigits i).reverse ':' tag.data.reverse hall hcolon
  have hne : ((natDigits i).reverse.isEmpty = false) := by
    have := natDigits_ne_nil i
    cases h : (natDigits i).reverse with
    | nil => exact absurd (List.reverse_eq_nil_iff.mp h) this
    | cons a t => rfl
  unfold from_global_id
  rw [hrev]
  simp only [htw.1, htw.2, hne, Bool.false_eq_true, if_false,
    List.reverse_reverse, digitsVal_natDigits]

theorem to_global_id_injective (tag : String) {i j : Nat}
    (h : to_global_id tag i = to_global_id tag j) : i = j := by
  have hi := from_global_id_to_global_id tag i
  rw [h, from_global_id_to_global_id tag j] at hi
  exact (congrArg Prod.snd (Option.some.inj hi)).symm

/- ### Tree traversal engine -/

/-- Rows of the population whose parent_id is i: the base query
Annotation.objects.filter(parent_id=i) and the recursive join
cte.join(Annotation, parent_id=cte.col.id). -/
def childrenOf (pop : List RawNode) (i : Nat) : List RawNode :=
  pop.filter (fun n => decide (n.parent_id = some i))

/-- One recursive-CTE expansion step: children of every row of the working
frontier. -/
def cteStep (pop : List RawNode) (frontier : List RawNode) : List RawNode :=
  frontier.flatMap (fun n => childrenOf pop n.id)

/-- Accumulated rows of the recursive CTE with UNION ALL semantics: every
frontier produced is emitted, duplicates and all.  SQL recursion stops once
a step yields no rows; the fuel argument makes the model total, and fuel =
population size is proved sufficient on acyclic data (cteAcc_mem_iff). -/
def cteAcc (pop : List RawNode) : Nat → List RawNode → List RawNode
  | 0, _ => []
  | fuel + 1, frontier => frontier ++ cteAcc pop fuel (cteStep pop frontier)

/-- Comparison used to model order_by("id"). -/
def rIdLe (a b : RawNode) : Prop := a.id ≤ b.id

instance : DecidableRel rIdLe := fun a b => Nat.decLe a.id b.id

instance : IsTotal RawNode rIdLe := ⟨fun a b => Nat.le_total a.id b.id⟩

instance : IsTrans RawNode rIdLe := ⟨fun _ _ _ h h2 => Nat.le_trans h h2⟩

/-- Row lookup by primary key (root.parent FK dereference). -/
def findById (pop : List RawNode) (p : Nat) : Option RawNode :=
  pop.find? (fun m => decide (m.id = p))

/-- The loop "while root.parent_id is not None: root = root.parent" of
resolve_full_tree.  Fuel bounds the walk (the Python loop would diverge on a
cyclic parent relation); a missing parent row also yields none. -/
def walk_to_root (pop : List RawNode) : Nat → RawNode → Option RawNode
  | 0, node =>
    match node.parent_id with
    | none => some node
    | some _ => none
  | fuel + 1, node =>
    match node.parent_id with
    | none => some node
    | some p =>
      match findById pop p with
      | none => none
      | some m => walk_to_root pop fuel m

/-- The ancestor loop of resolve_subtree: the node itself, its parent, and so
on up to and including the root ancestor. -/
def ancestor_path (pop : List RawNode) : Nat → RawNode → Option (List RawNode)
  | 0, node =>
    match node.parent_id with
    | none => some [node]
    | some _ => none
  | fuel + 1, node =>
    match node.parent_id with
    | none => some [node]
    | some p =>
      match findById pop p with
      | none => none
      | some m => (ancestor_path pop fuel m).map (fun l => node :: l)

/-- Row set of resolve_descendants_tree before flattening: the recursive CTE
seeded with the children of the root, ordered by id. -/
def descendants_rows (pop : List RawNode) (rootId : Nat) : List RawNode :=
  List.insertionSort rIdLe (cteAcc pop pop.length (childrenOf pop rootId))

/-- resolve_descendants_tree: descendants of the node (excluding the node),
ordered by id and flattened. -/
def resolve_descendants_tree (pop : List RawNode) (selfId : Nat) : List FlatNode :=
  build_flat_tree (descendants_rows pop selfId)

/-- Row set of resolve_full_tree before flattening: the recursive CTE seeded
with Annotation.objects.filter(id=root.id), ordered by id. -/
def full_tree_rows (pop : List RawNode) (rootId : Nat) : List RawNode :=
  List.insertionSort rIdLe
    (cteAcc pop pop.length (pop.filter (fun n => decide (n.id = rootId))))

/-- resolve_full_tree: walk up to the root ancestor, then flatten the closure
of the child relation seeded at that root. -/
def resolve_full_tree (pop : List RawNode) (node : RawNode) : Option (List FlatNode) :=
  (walk_to_root pop pop.length node).map fun root =>
    build_flat_tree (full_tree_rows pop root.id)

/-- Row set of resolve_subtree before flattening: the rows whose id lies on
the ancestor path, UNION ALL the descendants CTE of the node.  Neither query
carries an order_by, and UNION ALL performs no deduplication. -/
def subtree_rows (pop : List RawNode) (selfId : Nat) (ancestors : List RawNode) :
    List RawNode :=
  let ancestor_ids := ancestors.map (fun a => a.id)
  pop.filter (fun n => decide (n.id ∈ ancestor_ids)) ++
    cteAcc pop pop.length (childrenOf pop selfId)

/-- resolve_subtree: collect the ancestor path, union it with the descendants
CTE, and flatten. -/
def resolve_subtree (pop : List RawNode) (node : RawNode) : Option (List FlatNode) :=
  (ancestor_path pop pop.length node).map fun ancestors =>
    build_flat_tree (subtree_rows pop node.id ancestors)

/- ### Well-formedness of the node population -/

/-- A rank function witnessing acyclicity: every edge from a parent id to a
child row strictly increases the rank. -/
def RankOk (pop : List RawNode) (rank : Nat → Nat) : Prop :=
  ∀ n ∈ pop, ∀ p, n.parent_id = some p → rank p < rank n.id

/-- The parent relation over the population is acyclic (equivalently for a
finite relation: it admits a topological rank). -/
def Acyclic (pop : List RawNode) : Prop := ∃ rank, RankOk pop rank

/-- Referential integrity of the parent foreign key: a non-null parent_id
always names a row of the population. -/
def ParentClosed (pop : List RawNode) : Prop :=
  ∀ n ∈ pop, ∀ p, n.parent_id = some p → ∃ m, m ∈ pop ∧ m.id = p

/-- Primary keys are unique. -/
def NodupIds (pop : List RawNode) : Prop := (pop.map (fun n => n.id)).Nodup

instance (pop : List RawNode) : Decidable (NodupIds pop) :=
  inferInstanceAs (Decidable ((pop.map (fun n : RawNode => n.id)).Nodup))

/-- Transitive closure of the child relation on internal ids: j is a strict
descendant of i. -/
inductive Reaches (pop : List RawNode) : Nat → Nat → Prop
  | child {i : Nat} {n : RawNode} : n ∈ pop → n.parent_id = some i →
      Reaches pop i n.id
  | step {i j : Nat} {n : RawNode} : Reaches pop i j → n ∈ pop →
      n.parent_id = some j → Reaches pop i n.id

theorem Reaches.trans {pop : List RawNode} {i j k : Nat}
    (hij : Reaches pop i j) (hjk : Reaches pop j k) : Reaches pop i k := by
  induction hjk with
  | child hmem hpar => exact Reaches.step hij hmem hpar
  | step _ hmem hpar ih => exact Reaches.step ih hmem hpar

theorem Reaches.rank_lt {pop : List RawNode} {rank : Nat → Nat}
    (hr : RankOk pop rank) {i j : Nat} (h : Reaches pop i j) :
    rank i < rank j := by
  induction h with
  | child hmem hpar => exact hr _ hmem _ hpar
  | step _ hmem hpar ih => exact Nat.lt_trans ih (hr _ hmem _ hpar)

theorem Reaches.irrefl {pop : List RawNode} (hac : Acyclic pop) (i : Nat) :
    ¬ Reaches pop i i := by
  rcases hac with ⟨rank, hr⟩
  intro h
  exact Nat.lt_irrefl _ (h.rank_lt hr)

/- ### Frontier layers of the recursive CTE -/

/-- The d-th working frontier of the recursive CTE. -/
def layer (pop : List RawNode) (fr : List RawNode) (d : Nat) : List RawNode :=
  (cteStep pop)^[d] fr

theorem layer_zero (pop fr : List RawNode) : layer pop fr 0 = fr := rfl

theorem layer_succ_left (pop fr : List RawNode) (d : Nat) :
    layer pop fr (d + 1) = layer pop (cteStep pop fr) d :=
  Function.iterate_succ_apply (cteStep pop) d fr

theorem layer_succ_right (pop fr : List RawNode) (d : Nat) :
    layer pop fr (d + 1) = cteStep pop (layer pop fr d) :=
  Function.iterate_succ_apply' (cteStep pop) d fr

theorem mem_childrenOf {pop : List RawNode} {i : Nat} {x : RawNode} :
    x ∈ childrenOf pop i ↔ x ∈ pop ∧ x.parent_id = some i := by
  simp [childrenOf, List.mem_filter]

theorem mem_cteStep {pop fr : List RawNode} {x : RawNode} :
    x ∈ cteStep pop fr ↔ ∃ y ∈ fr, x ∈ pop ∧ x.parent_id = some y.id := by
  simp only [cteStep, List.mem_flatMap, mem_childrenOf]

theorem mem_cteAcc_iff_layer {pop : List RawNode} {x : RawNode} :
    ∀ {fuel : Nat} {fr : List RawNode},
      x ∈ cteAcc pop fuel fr ↔ ∃ d, d < fuel ∧ x ∈ layer pop fr d := by
  intro fuel
  induction fuel with
  | zero => intro fr; simp [cteAcc]
  | succ fuel ih =>
    intro fr
    simp only [cteAcc, List.mem_append, ih]
    constructor
    · rintro (hx | ⟨d, hd, hx⟩)
      · exact ⟨0, Nat.succ_pos fuel, hx⟩
      · rw [← layer_succ_left] at hx
        exact ⟨d + 1, Nat.succ_lt_succ hd, hx⟩
    · rintro ⟨d, hd, hx⟩
      cases d with
      | zero => exact Or.inl hx
      | succ d =>
        rw [layer_succ_left] at hx
        exact Or.inr ⟨d, Nat.lt_of_succ_lt_succ hd, hx⟩

theorem mem_pop_of_mem_layer {pop fr : List RawNode} {x : RawNode} {d : Nat}
    (hfr : ∀ y ∈ fr, y ∈ pop) (hx : x ∈ layer pop fr d) : x ∈ pop := by
  cases d with
  | zero => exact hfr x hx
  | succ d =>
    rw [layer_succ_right] at hx
    exact (mem_cteStep.mp hx).choose_spec.2.1

theorem layer_sound {pop fr : List RawNode} :
    ∀ {d : Nat} {x : RawNode}, x ∈ layer pop fr d →
      (d = 0 ∧ x ∈ fr) ∨ (x ∈ pop ∧ ∃ b ∈ fr, Reaches pop b.id x.id) := by
  intro d
  induction d with
  | zero => intro x hx; exact Or.inl ⟨rfl, hx⟩
  | succ d ih =>
    intro x hx
    rw [layer_succ_right] at hx
    rcases mem_cteStep.mp hx with ⟨y, hy, hxpop, hxpar⟩
    rcases ih hy with ⟨_, hyfr⟩ | ⟨_, b, hbfr, hreach⟩
    · exact Or.inr ⟨hxpop, y, hyfr, Reaches.child hxpop hxpar⟩
    · exact Or.inr ⟨hxpop, b, hbfr, Reaches.step hreach hxpop hxpar⟩

theorem layer_complete {pop : List RawNode} {r m : Nat}
    (h : Reaches pop r m) :
    ∃ d x, x ∈ layer pop (childrenOf pop r) d ∧ x.id = m := by
  induction h with
  | child hmem hpar =>
    exact ⟨0, _, mem_childrenOf.mpr ⟨hmem, hpar⟩, rfl⟩
  | step _ hmem hpar ih =>
    rcases ih with ⟨d, x, hx, hxid⟩
    refine ⟨d + 1, _, ?_, rfl⟩
    rw [layer_succ_right]
    exact mem_cteStep.mpr ⟨x, hx, hmem, hxid ▸ hpar⟩

theorem length_filter_lt_length_filter {α : Type} {p q : α → Bool} {l : List α}
    {a : α} (ha : a ∈ l) (hqa : q a = true) (hpa : p a = false)
    (himp : ∀ x, p x = true → q x = true) :
    (l.filter p).length < (l.filter q).length := by
  induction l with
  | nil => cases ha
  | cons b t ih =>
    rcases List.mem_cons.mp ha with rfl | hat
    · rw [List.filter_cons_of_neg (by simp [hpa]), List.filter_cons_of_pos (by simp [hqa])]
      exact Nat.lt_succ_of_le (List.monotone_filter_right t himp).length_le
    · cases hpb : p b
      · cases hqb : q b
        · rw [List.filter_cons_of_neg (by simp [hpb]), List.filter_cons_of_neg (by simp [hqb])]
          exact ih hat
        · rw [List.filter_cons_of_neg (by simp [hpb]), List.filter_cons_of_pos (by simp [hqb])]
          exact Nat.lt_succ_of_lt (ih hat)
      · rw [List.filter_cons_of_pos (by simp [hpb]),
          List.filter_cons_of_pos (by simp [himp b hpb])]
        exact Nat.succ_lt_succ (ih hat)

theorem layer_depth_bound {pop fr : List RawNode} {rank : Nat → Nat}
    (hr : RankOk pop rank) (hfr : ∀ y ∈ fr, y ∈ pop) :
    ∀ {d : Nat} {x : RawNode}, x ∈ layer pop fr d →
      d ≤ (pop.filter (fun y => decide (rank y.id < rank x.id))).length := by
  intro d
  induction d with
  | zero => intro x _; exact Nat.zero_le _
  | succ d ih =>
    intro x hx
    rw [layer_succ_right] at hx
    rcases mem_cteStep.mp hx with ⟨y, hy, hxpop, hxpar⟩
    have hylt : rank y.id < rank x.id := hr x hxpop _ hxpar
    have hypop : y ∈ pop := mem_pop_of_mem_layer hfr hy
    have hstrict : (pop.filter (fun z => decide (rank z.id < rank y.id))).length <
        (pop.filter (fun z => decide (rank z.id < rank x.id))).length := by
      refine length_filter_lt_length_filter hypop ?_ ?_ ?_
      · simpa using hylt
      · simp
      · intro z hz
        simp only [decide_eq_true_eq] at hz ⊢
        exact Nat.lt_trans hz hylt
    exact Nat.succ_le_of_lt (Nat.lt_of_le_of_lt (ih hy) hstrict)

theorem layer_lt_length {pop fr : List RawNode}
    (hac : Acyclic pop) (hfr : ∀ y ∈ fr, y ∈ pop) {d : Nat} {x : RawNode}
    (hx : x ∈ layer pop fr d) : d < pop.length := by
  rcases hac with ⟨rank, hr⟩
  have hbound := layer_depth_bound hr hfr hx
  have hxpop : x ∈ pop := mem_pop_of_mem_layer hfr hx
  have hlt : (pop.filter (fun y => decide (rank y.id < rank x.id))).length <
      (pop.filter (fun _ => true)).length := by
    refine length_filter_lt_length_filter hxpop rfl ?_ (fun _ _ => rfl)
    simp
  rw [List.filter_true] at hlt
  exact Nat.lt_of_le_of_lt hbound hlt

theorem mem_cteAcc_iff {pop fr : List RawNode} {x : RawNode}
    (hac : Acyclic pop) (hfr : ∀ y ∈ fr, y ∈ pop) :
    x ∈ cteAcc pop pop.length fr ↔ ∃ d, x ∈ layer pop fr d := by
  rw [mem_cteAcc_iff_layer]
  constructor
  · rintro ⟨d, _, hx⟩; exact ⟨d, hx⟩
  · rintro ⟨d, hx⟩; exact ⟨d, layer_lt_length hac hfr hx, hx⟩

/-- Membership of the descendants CTE: exactly the ids strictly reachable
from the root by the child relation. -/
theorem descendants_cte_mem_iff {pop : List RawNode} {r m : Nat}
    (hac : Acyclic pop) :
    (∃ x ∈ cteAcc pop pop.length (childrenOf pop r), x.id = m) ↔
      Reaches pop r m := by
  have hfr : ∀ y ∈ childrenOf pop r, y ∈ pop := fun y hy => (mem_childrenOf.mp hy).1
  constructor
  · rintro ⟨x, hx, rfl⟩
    rcases (mem_cteAcc_iff hac hfr).mp hx with ⟨d, hxd⟩
    rcases layer_sound hxd with ⟨_, hxfr⟩ | ⟨_, b, hbfr, hreach⟩
    · rcases mem_childrenOf.mp hxfr with ⟨hxpop, hxpar⟩
      exact Reaches.child hxpop hxpar
    · rcases mem_childrenOf.mp hbfr with ⟨hbpop, hbpar⟩
      exact Reaches.trans (Reaches.child hbpop hbpar) hreach
  · intro h
    rcases layer_complete h with ⟨d, x, hx, hxid⟩
    exact ⟨x, (mem_cteAcc_iff hac hfr).mpr ⟨d, hx⟩, hxid⟩

/- ### Duplicate-freeness of the CTE row set -/

theorem nodupIds_filter {pop : List RawNode} (h : NodupIds pop) (p : RawNode → Bool) :
    NodupIds (pop.filter p) := by
  refine List.Nodup.sublist ?_ h
  exact (List.filter_sublist pop).map (fun n => n.id)

theorem nodupIds_childrenOf {pop : List RawNode} (h : NodupIds pop) (i : Nat) :
    NodupIds (childrenOf pop i) :=
  nodupIds_filter h _

theorem eq_of_mem_of_id_eq {pop : List RawNode} (h : NodupIds pop) :
    ∀ {a b : RawNode}, a ∈ pop → b ∈ pop → a.id = b.id → a = b := by
  induction pop with
  | nil => intro a b ha; cases ha
  | cons c t ih =>
    intro a b ha hb hid
    have hc : c.id ∉ t.map (fun n => n.id) := (List.nodup_cons.mp h).1
    have ht : NodupIds t := (List.nodup_cons.mp h).2
    rcases List.mem_cons.mp ha with rfl | hat
    · rcases List.mem_cons.mp hb with rfl | hbt
      · rfl
      · exact absurd (hid ▸ List.mem_map_of_mem (fun n => n.id) hbt) hc
    · rcases List.mem_cons.mp hb with rfl | hbt
      · exact absurd (hid ▸ List.mem_map_of_mem (fun n => n.id) hat) hc
      · exact ih ht hat hbt hid

theorem pairwise_ne_id {fr : List RawNode} (h : NodupIds fr) :
    fr.Pairwise (fun a b => a.id ≠ b.id) := by
  have := List.pairwise_map.mp h
  exact this

theorem nodupIds_cteStep {pop fr : List RawNode} (hpop : NodupIds pop)
    (hfr : NodupIds fr) : NodupIds (cteStep pop fr) := by
  unfold NodupIds cteStep
  rw [List.map_flatMap]
  rw [List.nodup_flatMap]
  constructor
  · intro y _
    exact nodupIds_childrenOf hpop y.id
  · refine (pairwise_ne_id hfr).imp ?_
    intro a b hne m hma hmb
    simp only [List.mem_map] at hma hmb
    rcases hma with ⟨x, hx, rfl⟩
    rcases hmb with ⟨x₂, hx₂, hid⟩
    rcases mem_childrenOf.mp hx with ⟨hxpop, hxpar⟩
    rcases mem_childrenOf.mp hx₂ with ⟨hx₂pop, hx₂par⟩
    have : x = x₂ := eq_of_mem_of_id_eq hpop hxpop hx₂pop hid.symm
    subst this
    rw [hxpar] at hx₂par
    exact hne (Option.some.inj hx₂par)

theorem nodupIds_layer {pop fr : List RawNode} (hpop : NodupIds pop)
    (hfr : NodupIds fr) (d : Nat) : NodupIds (layer pop fr d) := by
  induction d with
  | zero => exact hfr
  | succ d ih =>
    rw [layer_succ_right]
    exact nodupIds_cteStep hpop ih

/-- No row of the seed frontier is strictly reachable from (the id of) a row
of the seed frontier.  Holds for both seeds the resolvers use, and rules out
a row reappearing at a later frontier. -/
def NoReenter (pop fr : List RawNode) : Prop :=
  ∀ b ∈ fr, ∀ x ∈ fr, ¬ Reaches pop b.id x.id

theorem not_mem_layer_succ_of_mem_seed {pop fr : List RawNode}
    (hnr : NoReenter pop fr) {x : RawNode} {d : Nat}
    (hx0 : x ∈ fr) (hxd : x ∈ layer pop fr (d + 1)) : False := by
  rw [layer_succ_right] at hxd
  rcases mem_cteStep.mp hxd with ⟨y, hy, hxpop, hxpar⟩
  rcases layer_sound hy with ⟨_, hyfr⟩ | ⟨_, b, hbfr, hreach⟩
  · exact hnr y hyfr x hx0 (Reaches.child hxpop hxpar)
  · exact hnr b hbfr x hx0 (Reaches.step hreach hxpop hxpar)

theorem layer_unique {pop fr : List RawNode} (hpop : NodupIds pop)
    (hfr : ∀ y ∈ fr, y ∈ pop) (hnr : NoReenter pop fr) :
    ∀ {d e : Nat} {x : RawNode}, x ∈ layer pop fr d → x ∈ layer pop fr e → d = e := by
  intro d
  induction d with
  | zero =>
    intro e x hxd hxe
    cases e with
    | zero => rfl
    | succ e => exact (not_mem_layer_succ_of_mem_seed hnr hxd hxe).elim
  | succ d ih =>
    intro e x hxd hxe
    cases e with
    | zero => exact (not_mem_layer_succ_of_mem_seed hnr hxe hxd).elim
    | succ e =>
      rw [layer_succ_right] at hxd hxe
      rcases mem_cteStep.mp hxd with ⟨y, hy, _, hxpar⟩
      rcases mem_cteStep.mp hxe with ⟨y₂, hy₂, _, hxpar₂⟩
      have hyid : y.id = y₂.id := by
        rw [hxpar] at hxpar₂
        exact Option.some.inj hxpar₂
      have hypop : y ∈ pop := mem_pop_of_mem_layer hfr hy
      have hy₂pop : y₂ ∈ pop := mem_pop_of_mem_layer hfr hy₂
      have : y = y₂ := eq_of_mem_of_id_eq hpop hypop hy₂pop hyid
      subst this
      exact congrArg Nat.succ (ih hy hy₂)

theorem cteAcc_eq_flatMap_range (pop : List RawNode) :
    ∀ (fuel : Nat) (fr : List RawNode),
      cteAcc pop fuel fr = (List.range fuel).flatMap (layer pop fr) := by
  intro fuel
  induction fuel with
  | zero => intro fr; simp [cteAcc]
  | succ fuel ih =>
    intro fr
    rw [List.range_succ_eq_map, List.flatMap_cons]
    show cteAcc pop (fuel + 1) fr = layer pop fr 0 ++ _
    rw [layer_zero]
    unfold cteAcc
    congr 1
    rw [ih (cteStep pop fr)]
    induction (List.range fuel) with
    | nil => rfl
    | cons a t iht =>
      rw [List.map_cons, List.flatMap_cons, List.flatMap_cons, iht,
        ← layer_succ_left pop fr a]

theorem nodupIds_cteAcc {pop fr : List RawNode} (hpop : NodupIds pop)
    (hfr : NodupIds fr) (hsub : ∀ y ∈ fr, y ∈ pop) (hnr : NoReenter pop fr)
    (fuel : Nat) : NodupIds (cteAcc pop fuel fr) := by
  unfold NodupIds
  rw [cteAcc_eq_flatMap_range, List.map_flatMap, List.nodup_flatMap]
  constructor
  · intro d _
    exact nodupIds_layer hpop hfr d
  · refine (List.pairwise_lt_range fuel).imp ?_
    intro d e hlt m hmd hme
    simp only [List.mem_map] at hmd hme
    rcases hmd with ⟨x, hx, rfl⟩
    rcases hme with ⟨x₂, hx₂, hid⟩
    have hxpop : x ∈ pop := mem_pop_of_mem_layer hsub hx
    have hx₂pop : x₂ ∈ pop := mem_pop_of_mem_layer hsub hx₂
    have : x = x₂ := eq_of_mem_of_id_eq hpop hxpop hx₂pop hid.symm
    subst this
    exact Nat.lt_irrefl d (layer_unique hpop hsub hnr hx hx₂ ▸ hlt)

/-- Inversion of a reachability derivation at its final edge. -/
theorem Reaches.last_step {pop : List RawNode} {i m : Nat} (h : Reaches pop i m) :
    ∃ n ∈ pop, n.id = m ∧
      (n.parent_id = some i ∨ ∃ j, n.parent_id = some j ∧ Reaches pop i j) := by
  cases h with
  | child hmem hpar => exact ⟨_, hmem, rfl, Or.inl hpar⟩
  | step hr hmem hpar => exact ⟨_, hmem, rfl, Or.inr ⟨_, hpar, hr⟩⟩

theorem noReenter_childrenOf {pop : List RawNode} (hpop : NodupIds pop)
    (hac : Acyclic pop) (r : Nat) : NoReenter pop (childrenOf pop r) := by
  intro b hb x hx hreach
  rcases mem_childrenOf.mp hb with ⟨hbpop, hbpar⟩
  rcases mem_childrenOf.mp hx with ⟨hxpop, hxpar⟩
  rcases hreach.last_step with ⟨n, hnpop, hnid, hlast⟩
  have hnx : n = x := eq_of_mem_of_id_eq hpop hnpop hxpop hnid
  subst hnx
  rcases hlast with hpar | ⟨j, hpar, hr⟩
  · rw [hxpar] at hpar
    have hbr : b.id = r := (Option.some.inj hpar).symm
    have : Reaches pop b.id b.id := Reaches.child hbpop (hbr ▸ hbpar)
    exact Reaches.irrefl hac b.id this
  · rw [hxpar] at hpar
    have hjr : r = j := Option.some.inj hpar
    rw [← hjr] at hr
    have : Reaches pop r r := Reaches.trans (Reaches.child hbpop hbpar) hr
    exact Reaches.irrefl hac r this

theorem noReenter_rootFilter {pop : List RawNode} (hac : Acyclic pop) (rootId : Nat) :
    NoReenter pop (pop.filter (fun n => decide (n.id = rootId))) := by
  intro b hb x hx hreach
  have hbid : b.id = rootId := by simpa using (List.mem_filter.mp hb).2
  have hxid : x.id = rootId := by simpa using (List.mem_filter.mp hx).2
  rw [hbid, hxid] at hreach
  exact Reaches.irrefl hac rootId hreach

/- ### Success of the upward parent walks -/

theorem findById_mem {pop : List RawNode} {m : RawNode} {p : Nat}
    (h : findById pop p = some m) : m ∈ pop ∧ m.id = p := by
  unfold findById at h
  refine ⟨List.mem_of_find?_eq_some h, ?_⟩
  have := List.find?_some h
  simpa using this

theorem findById_eq_some {pop : List RawNode} {p : Nat}
    (h : ∃ m, m ∈ pop ∧ m.id = p) : ∃ m, findById pop p = some m := by
  rcases h with ⟨m, hm, hid⟩
  have hsome : (findById pop p).isSome := by
    unfold findById
    rw [List.find?_isSome]
    exact ⟨m, hm, by simpa using hid⟩
  exact Option.isSome_iff_exists.mp hsome

theorem mem_rank_filter {pop : List RawNode} {rank : Nat → Nat} {m : RawNode}
    (hm : m ∈ pop) {b : Nat} (hb : rank m.id < b) :
    0 < (pop.filter (fun y => decide (rank y.id < b))).length := by
  have : m ∈ pop.filter (fun y => decide (rank y.id < b)) :=
    List.mem_filter.mpr ⟨hm, by simpa using hb⟩
  exact List.length_pos.mpr (List.ne_nil_of_mem this)

theorem rank_filter_strict {pop : List RawNode} {rank : Nat → Nat}
    {m : RawNode} (hm : m ∈ pop) {b : Nat} (hb : rank m.id < b) :
    (pop.filter (fun y => decide (rank y.id < rank m.id))).length <
      (pop.filter (fun y => decide (rank y.id < b))).length := by
  refine length_filter_lt_length_filter hm ?_ ?_ ?_
  · simpa using hb
  · simp
  · intro z hz
    simp only [decide_eq_true_eq] at hz ⊢
    exact Nat.lt_trans hz hb

theorem ancestor_path_spec {pop : List RawNode} {rank : Nat → Nat}
    (hrk : RankOk pop rank) (hpc : ParentClosed pop) :
    ∀ {fuel : Nat} {n : RawNode}, n ∈ pop →
      (pop.filter (fun y => decide (rank y.id < rank n.id))).length ≤ fuel →
      ∃ l, ancestor_path pop fuel n = some (n :: l) ∧
        (∀ x ∈ n :: l, x ∈ pop ∧ (x = n ∨ Reaches pop x.id n.id)) ∧
        ∃ r, (n :: l).getLast? = some r ∧ r.parent_id = none := by
  intro fuel
  induction fuel with
  | zero =>
    intro n hn hlen
    cases hpar : n.parent_id with
    | none =>
      refine ⟨[], by simp [ancestor_path, hpar], ?_, n, rfl, hpar⟩
      intro x hx
      rw [List.mem_singleton] at hx
      exact ⟨hx ▸ hn, Or.inl hx⟩
    | some p =>
      rcases hpc n hn p hpar with ⟨m, hm, hid⟩
      have hplt : rank p < rank n.id := hrk n hn p hpar
      have := mem_rank_filter hm (hid ▸ hplt)
      omega
  | succ fuel ih =>
    intro n hn hlen
    cases hpar : n.parent_id with
    | none =>
      refine ⟨[], by simp [ancestor_path, hpar], ?_, n, rfl, hpar⟩
      intro x hx
      rw [List.mem_singleton] at hx
      exact ⟨hx ▸ hn, Or.inl hx⟩
    | some p =>
      rcases findById_eq_some (hpc n hn p hpar) with ⟨m, hfind⟩
      rcases findById_mem hfind with ⟨hm, hid⟩
      have hplt : rank m.id < rank n.id := hid ▸ hrk n hn p hpar
      have hless : (pop.filter (fun y => decide (rank y.id < rank m.id))).length ≤ fuel := by
        have := rank_filter_strict hm hplt
        omega
      rcases ih hm hless with ⟨l, heq, hmem, r, hlast, hrpar⟩
      have hreach_m : Reaches pop m.id n.id := Reaches.child hn (hid ▸ hpar)
      refine ⟨m :: l, ?_, ?_, r, ?_, hrpar⟩
      · simp [ancestor_path, hpar, hfind, heq]
      · intro x hx
        rcases List.mem_cons.mp hx with rfl | hx2
        · exact ⟨hn, Or.inl rfl⟩
        · rcases hmem x hx2 with ⟨hxpop, hxm⟩
          refine ⟨hxpop, Or.inr ?_⟩
          rcases hxm with rfl | hxr
          · exact hreach_m
          · exact Reaches.trans hxr hreach_m
      · rw [← hlast]
        exact List.getLast?_cons_cons

theorem walk_to_root_spec {pop : List RawNode} {rank : Nat → Nat}
    (hrk : RankOk pop rank) (hpc : ParentClosed pop) :
    ∀ {fuel : Nat} {n : RawNode}, n ∈ pop →
      (pop.filter (fun y => decide (rank y.id < rank n.id))).length ≤ fuel →
      ∃ r, walk_to_root pop fuel n = some r ∧ r ∈ pop ∧ r.parent_id = none ∧
        (r = n ∨ Reaches pop r.id n.id) := by
  intro fuel
  induction fuel with
  | zero =>
    intro n hn hlen
    cases hpar : n.parent_id with
    | none => exact ⟨n, by simp [walk_to_root, hpar], hn, hpar, Or.inl rfl⟩
    | some p =>
      rcases hpc n hn p hpar with ⟨m, hm, hid⟩
      have hplt : rank p < rank n.id := hrk n hn p hpar
      have := mem_rank_filter hm (hid ▸ hplt)
      omega
  | succ fuel ih =>
    intro n hn hlen
    cases hpar : n.parent_id with
    | none => exact ⟨n, by simp [walk_to_root, hpar], hn, hpar, Or.inl rfl⟩
    | some p =>
      rcases findById_eq_some (hpc n hn p hpar) with ⟨m, hfind⟩
      rcases findById_mem hfind with ⟨hm, hid⟩
      have hplt : rank m.id < rank n.id := hid ▸ hrk n hn p hpar
      have hless : (pop.filter (fun y => decide (rank y.id < rank m.id))).length ≤ fuel := by
        have := rank_filter_strict hm hplt
        omega
      rcases ih hm hless with ⟨r, heq, hrpop, hrpar, hrm⟩
      have hreach_m : Reaches pop m.id n.id := Reaches.child hn (hid ▸ hpar)
      refine ⟨r, ?_, hrpop, hrpar, Or.inr ?_⟩
      · simp [walk_to_root, hpar, hfind, heq]
      · rcases hrm with rfl | hxr
        · exact hreach_m
        · exact Reaches.trans hxr hreach_m

theorem rank_filter_le_length (pop : List RawNode) (rank : Nat → Nat) (b : Nat) :
    (pop.filter (fun y => decide (rank y.id < b))).length ≤ pop.length :=
  List.length_filter_le _ pop

/- ### Characterization of the flattener -/

/-- Whether a row is appended under key k by the first loop of
build_flat_tree: its parent_id is truthy (neither None nor 0) and equals
k. -/
def contributesTo (k : Nat) (n : RawNode) : Bool :=
  match n.parent_id with
  | some p => if p = 0 then false else decide (p = k)
  | none => false

theorem mapGet_setdefaultAppend (m : ChildMap) (k v k₂ : Nat) :
    mapGet (setdefaultAppend m k v) k₂ =
      if k = k₂ then mapGet m k₂ ++ [v] else mapGet m k₂ := by
  induction m with
  | nil =>
    by_cases h : k = k₂ <;> simp [setdefaultAppend, mapGet, h]
  | cons kv rest ih =>
    rcases kv with ⟨k₀, vs⟩
    by_cases h0 : k₀ = k
    · subst h0
      by_cases h2 : k₀ = k₂
      · subst h2
        simp [setdefaultAppend, mapGet]
      · simp [setdefaultAppend, mapGet, h2]
    · by_cases h2 : k₀ = k₂
      · subst h2
        simp [setdefaultAppend, mapGet, h0, Ne.symm h0]
      · simp [setdefaultAppend, mapGet, h0, h2, ih]

theorem mapGet_foldl_addChild :
    ∀ (ns : List RawNode) (m : ChildMap) (k : Nat),
      mapGet (ns.foldl addChild m) k =
        mapGet m k ++ (ns.filter (contributesTo k)).map (fun n => n.id) := by
  intro ns
  induction ns with
  | nil => intro m k; simp
  | cons n ns ih =>
    intro m k
    rw [List.foldl_cons, ih]
    cases hpar : n.parent_id with
    | none =>
      have hc : contributesTo k n = false := by simp [contributesTo, hpar]
      simp [addChild, hpar, List.filter_cons, hc]
    | some p =>
      by_cases hp0 : p = 0
      · have hc : contributesTo k n = false := by simp [contributesTo, hpar, hp0]
        simp [addChild, hpar, hp0, List.filter_cons, hc]
      · by_cases hpk : p = k
        · subst hpk
          have hc : contributesTo p n = true := by simp [contributesTo, hpar, hp0]
          simp [addChild, hpar, hp0, List.filter_cons, hc,
            mapGet_setdefaultAppend, List.append_assoc]
        · have hc : contributesTo k n = false := by simp [contributesTo, hpar, hp0, hpk]
          simp [addChild, hpar, hp0, List.filter_cons, hc,
            mapGet_setdefaultAppend, hpk]

/-- Closed form of build_flat_tree: each input row is mapped, in order, to a
record whose children are exactly the ids of the input rows that name it as
their (truthy) parent. -/
theorem build_flat_tree_eq (ns : List RawNode) :
    build_flat_tree ns = ns.map (fun node =>
      { id := to_global_id "AnnotationType" node.id
        raw_text := node.raw_text
        children := (ns.filter (contributesTo node.id)).map
          (fun c => to_global_id "AnnotationType" c.id) }) := by
  unfold build_flat_tree
  refine List.map_congr_left ?_
  intro node _
  have := mapGet_foldl_addChild ns [] node.id
  simp only [mapGet] at this
  rw [this]
  simp [List.map_map, Function.comp]

theorem build_flat_tree_length (ns : List RawNode) :
    (build_flat_tree ns).length = ns.length := by
  rw [build_flat_tree_eq, List.length_map]

theorem build_flat_tree_map_id (ns : List RawNode) :
    (build_flat_tree ns).map (fun e => e.id) =
      ns.map (fun n => to_global_id "AnnotationType" n.id) := by
  rw [build_flat_tree_eq, List.map_map]
  rfl

theorem build_flat_tree_map_raw_text (ns : List RawNode) :
    (build_flat_tree ns).map (fun e => e.raw_text) =
      ns.map (fun n => n.raw_text) := by
  rw [build_flat_tree_eq, List.map_map]
  rfl

/-- Every id in any children list of the flattened output is the encoded id
of some input row whose parent_id is truthy. -/
theorem mem_children_build_flat_tree {ns : List RawNode} {e : FlatNode}
    (he : e ∈ build_flat_tree ns) {c : String} (hc : c ∈ e.children) :
    ∃ n, n ∈ ns ∧ c = to_global_id "AnnotationType" n.id ∧
      ∃ p, n.parent_id = some p ∧ p ≠ 0 := by
  rw [build_flat_tree_eq] at he
  rcases List.mem_map.mp he with ⟨node, _, rfl⟩
  simp only [List.mem_map, List.mem_filter] at hc
  rcases hc with ⟨n, ⟨hn, hcontrib⟩, rfl⟩
  refine ⟨n, hn, rfl, ?_⟩
  cases hpar : n.parent_id with
  | none => simp [contributesTo, hpar] at hcontrib
  | some p =>
    refine ⟨p, rfl, ?_⟩
    intro hp0
    simp [contributesTo, hpar, hp0] at hcontrib

/- ### Remaining helpers -/

theorem cteStep_nil (pop : List RawNode) : cteStep pop [] = [] := rfl

theorem cteAcc_nil (pop : List RawNode) : ∀ fuel, cteAcc pop fuel [] = [] := by
  intro fuel
  induction fuel with
  | zero => rfl
  | succ fuel ih => simpa [cteAcc, cteStep_nil] using ih

theorem filter_id_eq_singleton {pop : List RawNode} (hnd : NodupIds pop)
    {r : RawNode} (hr : r ∈ pop) :
    pop.filter (fun x => decide (x.id = r.id)) = [r] := by
  induction pop with
  | nil => cases hr
  | cons c t ih =>
    have hc : c.id ∉ t.map (fun x => x.id) := (List.nodup_cons.mp hnd).1
    have ht : NodupIds t := (List.nodup_cons.mp hnd).2
    rcases List.mem_cons.mp hr with rfl | hrt
    · have hnone : t.filter (fun x => decide (x.id = r.id)) = [] := by
        rw [List.filter_eq_nil_iff]
        intro x hx hxid
        simp only [decide_eq_true_eq] at hxid
        exact hc (hxid ▸ List.mem_map_of_mem (fun y => y.id) hx)
      simp [List.filter_cons, hnone]
    · have hne : ¬ c.id = r.id := by
        intro he
        exact hc (he ▸ List.mem_map_of_mem (fun y => y.id) hrt)
      simp [List.filter_cons, hne, ih ht hrt]

theorem mem_map_id_insertionSort {l : List RawNode} {m : Nat} :
    m ∈ (List.insertionSort rIdLe l).map (fun x => x.id) ↔ ∃ x ∈ l, x.id = m := by
  simp [List.mem_map, List.mem_insertionSort]

theorem sorted_ids_insertionSort (l : List RawNode) :
    List.Sorted (fun a b : Nat => a ≤ b)
      ((List.insertionSort rIdLe l).map (fun n => n.id)) := by
  have hs := List.sorted_insertionSort rIdLe l
  exact List.Pairwise.map _ (fun a b h => h) hs

theorem contributesTo_zero (c : RawNode) : contributesTo 0 c = false := by
  unfold contributesTo
  cases c.parent_id with
  | none => rfl
  | some p =>
    by_cases hp : p = 0 <;> simp [hp]

theorem cteStep_singleton (pop : List RawNode) (r : RawNode) :
    cteStep pop [r] = childrenOf pop r.id := by
  simp [cteStep]

/- ### Concrete populations used for witnesses and scenarios -/

/-- The population of the spec's scenarios: ids 1..4 with parent map
{1: null, 2: 1, 3: 1, 4: 2}. -/
def pop4 : List RawNode :=
  [{ id := 1, parent_id := none, raw_text := "t1" },
   { id := 2, parent_id := some 1, raw_text := "t2" },
   { id := 3, parent_id := some 1, raw_text := "t3" },
   { id := 4, parent_id := some 2, raw_text := "t4" }]

theorem rankOk_pop4 : RankOk pop4 (fun i => i) := by
  intro n hn p hp
  fin_cases hn
  · exact Option.noConfusion hp
  · obtain rfl : (1 : Nat) = p := Option.some.inj hp
    decide
  · obtain rfl : (1 : Nat) = p := Option.some.inj hp
    decide
  · obtain rfl : (2 : Nat) = p := Option.some.inj hp
    decide

theorem parentClosed_pop4 : ParentClosed pop4 := by
  intro n hn p hp
  fin_cases hn
  · exact Option.noConfusion hp
  · obtain rfl : (1 : Nat) = p := Option.some.inj hp
    exact ⟨{ id := 1, parent_id := none, raw_text := "t1" }, by decide, rfl⟩
  · obtain rfl : (1 : Nat) = p := Option.some.inj hp
    exact ⟨{ id := 1, parent_id := none, raw_text := "t1" }, by decide, rfl⟩
  · obtain rfl : (2 : Nat) = p := Option.some.inj hp
    exact ⟨{ id := 2, parent_id := some 1, raw_text := "t2" }, by decide, rfl⟩

/-- A one-node population, used for the not-found scenario. -/
def pop1 : List RawNode := [{ id := 1, parent_id := none, raw_text := "a" }]

theorem parentClosed_pop1 : ParentClosed pop1 := by
  intro n hn p hp
  fin_cases hn
  exact Option.noConfusion hp

/- ### Claim theorems -/

/-- C2 (counterexample): the claim asserts that a traversal on a root id
absent from the population fails with a NodeNotFound error rather than
returning an empty result.  The resolver code raises nothing: on the
population {1: null}, resolve_descendants_tree for the absent id 999 simply
returns the empty list.  The model is a total function into List FlatNode;
there is no error outcome in the code to surface. -/
theorem claim_C2_counterexample : resolve_descendants_tree pop1 999 = [] := by
  decide

/-- C2 (amended): a traversal whose root internal id is absent from a
parent-closed population returns the empty list; no NodeNotFound error is
raised, so an absent root is indistinguishable from a root with no
children. -/
theorem claim_C2 (pop : List RawNode) (rootId : Nat) (hpc : ParentClosed pop)
    (habs : ∀ n ∈ pop, n.id ≠ rootId) :
    resolve_descendants_tree pop rootId = [] := by
  have hch : childrenOf pop rootId = [] := by
    rw [childrenOf, List.filter_eq_nil_iff]
    intro n hn hpar
    simp only [decide_eq_true_eq] at hpar
    rcases hpc n hn rootId hpar with ⟨m, hm, hid⟩
    exact habs m hm hid
  rw [resolve_descendants_tree, descendants_rows, hch, cteAcc_nil]
  rfl

/-- C2 (witness): the amended statement evaluated on the scenario population
{1: null, 2: 1, 3: 1, 4: 2} with the absent root id 999. -/
theorem claim_C2_witness : resolve_descendants_tree pop4 999 = [] :=
  claim_C2 pop4 999 parentClosed_pop4 (by decide)

/-- C3: on an acyclic population, the descendants row set contains exactly
the internal ids reachable from the root by repeatedly following the child
relation, and the root id itself never appears in it. -/
theorem claim_C3 (pop : List RawNode) (rootId : Nat) (hac : Acyclic pop) :
    (∀ m, m ∈ (descendants_rows pop rootId).map (fun n => n.id) ↔
      Reaches pop rootId m) ∧
    rootId ∉ (descendants_rows pop rootId).map (fun n => n.id) := by
  have hiff : ∀ m, m ∈ (descendants_rows pop rootId).map (fun n => n.id) ↔
      Reaches pop rootId m := by
    intro m
    rw [descendants_rows, mem_map_id_insertionSort]
    exact descendants_cte_mem_iff hac
  refine ⟨hiff, ?_⟩
  intro hmem
  exact Reaches.irrefl hac rootId ((hiff rootId).mp hmem)

/-- C3 (witness): on the scenario population, descendants of node 1 are
exactly {2, 3, 4}; the root id 1 is absent. -/
theorem claim_C3_witness :
    4 ∈ (descendants_rows pop4 1).map (fun n => n.id) ∧
    1 ∉ (descendants_rows pop4 1).map (fun n => n.id) := by
  have h := claim_C3 pop4 1 ⟨fun i => i, rankOk_pop4⟩
  refine ⟨(h.1 4).mpr ?_, h.2⟩
  have h21 : ({ id := 2, parent_id := some 1, raw_text := "t2" } : RawNode) ∈ pop4 := by
    decide
  have h42 : ({ id := 4, parent_id := some 2, raw_text := "t4" } : RawNode) ∈ pop4 := by
    decide
  have hr12 : Reaches pop4 1 2 := Reaches.child h21 rfl
  exact Reaches.step hr12 h42 rfl

/-- C6: the identifier codec round-trips (decode after encode returns the
type tag and internal id unchanged), and encoding is injective for a fixed
type tag; determinism holds because to_global_id is a pure function. -/
theorem claim_C6 :
    (∀ (tag : String) (i : Nat),
      from_global_id (to_global_id tag i) = some (tag, i)) ∧
    (∀ (tag : String) (i j : Nat),
      to_global_id tag i = to_global_id tag j → i = j) := by
  refine ⟨from_global_id_to_global_id, ?_⟩
  intro tag i j h
  exact to_global_id_injective tag h

/-- C6 (witness): the codec round-trip and injectivity evaluated at the tag
the resolvers use and concrete internal ids. -/
theorem claim_C6_witness :
    from_global_id (to_global_id "AnnotationType" 42) = some ("AnnotationType", 42) ∧
    (7 : Nat) = 7 :=
  ⟨claim_C6.1 "AnnotationType" 42, claim_C6.2 "AnnotationType" 7 7 rfl⟩

/-- C7: in the descendants and full-tree modes the row set handed to the
flattener is ordered by ascending internal id (order_by("id")), and the
flattener emits exactly one record per input row in input order, so the
flattened output carries the same ascending order.  The subtree mode applies
no such sort in the model, matching the source, whose combined subtree query
has no order_by. -/
theorem claim_C7 :
    (∀ (pop : List RawNode) (rootId : Nat),
      List.Sorted (fun a b : Nat => a ≤ b)
        ((descendants_rows pop rootId).map (fun n => n.id))) ∧
    (∀ (pop : List RawNode) (rootId : Nat),
      List.Sorted (fun a b : Nat => a ≤ b)
        ((full_tree_rows pop rootId).map (fun n => n.id))) ∧
    (∀ ns : List RawNode,
      (build_flat_tree ns).length = ns.length ∧
      (build_flat_tree ns).map (fun e => e.id) =
        ns.map (fun n => to_global_id "AnnotationType" n.id)) := by
  refine ⟨?_, ?_, ?_⟩
  · intro pop rootId
    exact sorted_ids_insertionSort _
  · intro pop rootId
    exact sorted_ids_insertionSort _
  · intro ns
    exact ⟨build_flat_tree_length ns, build_flat_tree_map_id ns⟩

/-- The input list with a duplicated record, exercising the flattener's
behavior on duplicates. -/
def dupInput : List RawNode :=
  [{ id := 1, parent_id := none, raw_text := "x" },
   { id := 2, parent_id := some 1, raw_text := "y" },
   { id := 2, parent_id := some 1, raw_text := "y" }]

/-- C10: the flattener deduplicates nothing: the output has exactly the
length of the input, in input order, with raw_text copied verbatim; on an
input containing one record twice, the record is emitted twice and its
external id appears twice in its parent's children list. -/
theorem claim_C10 :
    (∀ ns : List RawNode,
      (build_flat_tree ns).length = ns.length ∧
      (build_flat_tree ns).map (fun e => e.raw_text) = ns.map (fun n => n.raw_text) ∧
      (build_flat_tree ns).map (fun e => e.id) =
        ns.map (fun n => to_global_id "AnnotationType" n.id)) ∧
    build_flat_tree dupInput =
      [{ id := to_global_id "AnnotationType" 1, raw_text := "x",
         children := [to_global_id "AnnotationType" 2, to_global_id "AnnotationType" 2] },
       { id := to_global_id "AnnotationType" 2, raw_text := "y", children := [] },
       { id := to_global_id "AnnotationType" 2, raw_text := "y", children := [] }] := by
  refine ⟨?_, by decide⟩
  intro ns
  exact ⟨build_flat_tree_length ns, build_flat_tree_map_raw_text ns,
    build_flat_tree_map_id ns⟩

/-- C4: children lists are computed only from rows in the flattener's input
set: when C is a real child of X in the full population but C is not among
the input rows, C's external id appears in no children list of the
flattened output — in particular not in X's. -/
theorem claim_C4 (pop ns : List RawNode) (C X : RawNode) (hnd : NodupIds pop)
    (hsub : ∀ y ∈ ns, y ∈ pop) (_hX : X ∈ ns) (hC : C ∈ pop) (hCn : C ∉ ns)
    (_hpar : C.parent_id = some X.id) :
    ∀ e ∈ build_flat_tree ns, to_global_id "AnnotationType" C.id ∉ e.children := by
  intro e he hmem
  rcases mem_children_build_flat_tree he hmem with ⟨n, hn, henc, _, _, _⟩
  have hid : C.id = n.id := to_global_id_injective _ henc
  have hCeq : n = C := eq_of_mem_of_id_eq hnd (hsub n hn) hC hid.symm
  exact hCn (hCeq ▸ hn)

/-- The queried subset {1, 2, 4} of pop4, i.e. the subtree(2) result set; the
real child 3 of node 1 is missing from it. -/
def subIn : List RawNode :=
  [{ id := 1, parent_id := none, raw_text := "t1" },
   { id := 2, parent_id := some 1, raw_text := "t2" },
   { id := 4, parent_id := some 2, raw_text := "t4" }]

/-- C4 (witness): flattening the subset {1, 2, 4} of pop4 never mentions the
external id of the missing real child 3 of node 1. -/
theorem claim_C4_witness :
    to_global_id "AnnotationType" 3 ∉
      (build_flat_tree subIn).flatMap (fun e => e.children) := by
  intro hmem
  rcases List.mem_flatMap.mp hmem with ⟨e, he, hc⟩
  exact claim_C4 pop4 subIn { id := 3, parent_id := some 1, raw_text := "t3" }
    { id := 1, parent_id := none, raw_text := "t1" } (by decide) (by decide)
    (by decide) (by decide) (by decide) rfl e he hc

/-- C8: scenario C of the spec.  On pop4, subtree(2) collects the ancestor
path {2, 1} and the descendants {4}; the flattened result covers exactly the
node set {1, 2, 4}, node 1's children list is [encode(2)] — node 3 is
excluded because it is not in the result set — and node 2's children list is
[encode(4)]. -/
theorem claim_C8 :
    resolve_subtree pop4 { id := 2, parent_id := some 1, raw_text := "t2" } =
      some
        [{ id := to_global_id "AnnotationType" 1, raw_text := "t1",
           children := [to_global_id "AnnotationType" 2] },
         { id := to_global_id "AnnotationType" 2, raw_text := "t2",
           children := [to_global_id "AnnotationType" 4] },
         { id := to_global_id "AnnotationType" 4, raw_text := "t4",
           children := [] }] := by
  decide

/-- C9: the flattener treats a falsy parent_id as "no parent".  First, a row
whose parent_id is 0 is recorded as a child of no row, so its external id
appears in no children list (given unique input ids).  Second, the entry of
a row with internal id 0 always has an empty children list, because the
truthiness guard "if parent_id:" rejects appending under key 0. -/
theorem claim_C9 :
    (∀ ns : List RawNode, NodupIds ns → ∀ n ∈ ns, n.parent_id = some 0 →
      ∀ e ∈ build_flat_tree ns, to_global_id "AnnotationType" n.id ∉ e.children) ∧
    (∀ ns : List RawNode, ∀ e ∈ build_flat_tree ns,
      e.id = to_global_id "AnnotationType" 0 → e.children = []) := by
  constructor
  · intro ns hnd n hn hpar e he hmem
    rcases mem_children_build_flat_tree he hmem with ⟨m, hm, henc, p, hp, hp0⟩
    have hid : n.id = m.id := to_global_id_injective _ henc
    have hnm : n = m := eq_of_mem_of_id_eq hnd hn hm hid
    subst hnm
    rw [hpar] at hp
    exact hp0 (Option.some.inj hp).symm
  · intro ns e he hid
    rw [build_flat_tree_eq] at he
    rcases List.mem_map.mp he with ⟨node, _, rfl⟩
    have hz : node.id = 0 := to_global_id_injective _ hid
    show (ns.filter (contributesTo node.id)).map
      (fun c => to_global_id "AnnotationType" c.id) = []
    rw [hz]
    have hnil : ns.filter (contributesTo 0) = [] := by
      rw [List.filter_eq_nil_iff]
      intro c _ hcon
      rw [contributesTo_zero] at hcon
      cases hcon
    rw [hnil]
    rfl

/-- An input set containing a node with internal id 0 together with its
child 5, and a grandchild 7. -/
def zeroInput : List RawNode :=
  [{ id := 0, parent_id := none, raw_text := "r" },
   { id := 5, parent_id := some 0, raw_text := "c" },
   { id := 7, parent_id := some 5, raw_text := "d" }]

/-- C9 (witness): on zeroInput, the external id of node 5 (whose parent_id
is 0) appears in no children list; node 0's entry has no children while node
5's entry still lists its own child 7. -/
theorem claim_C9_witness :
    to_global_id "AnnotationType" 5 ∉
      (build_flat_tree zeroInput).flatMap (fun e => e.children) ∧
    (build_flat_tree zeroInput).map (fun e => e.children) =
      [[], [to_global_id "AnnotationType" 7], []] := by
  constructor
  · intro hmem
    rcases List.mem_flatMap.mp hmem with ⟨e, he, hc⟩
    exact claim_C9.1 zeroInput (by decide)
      { id := 5, parent_id := some 0, raw_text := "c" } (by decide) rfl e he hc
  · decide

theorem subtree_rows_eq (pop : List RawNode) (selfId : Nat) (anc : List RawNode) :
    subtree_rows pop selfId anc =
      pop.filter (fun x => decide (x.id ∈ anc.map (fun a => a.id))) ++
        cteAcc pop pop.length (childrenOf pop selfId) := rfl

/-- C1: on an acyclic, parent-closed population with unique ids, the subtree
row set of a node N is exactly the union of the ancestor path of N (N itself
up to and including the true root) and the strict descendants of N, and
every internal id occurs exactly once in it: although the source combines
the two halves with UNION ALL and never deduplicates, the two halves are
provably disjoint on acyclic data. -/
theorem claim_C1 (pop : List RawNode) (n : RawNode) (hn : n ∈ pop)
    (hnd : NodupIds pop) (hac : Acyclic pop) (hpc : ParentClosed pop) :
    ∃ path, ancestor_path pop pop.length n = some (n :: path) ∧
      resolve_subtree pop n =
        some (build_flat_tree (subtree_rows pop n.id (n :: path))) ∧
      (∀ m, m ∈ (subtree_rows pop n.id (n :: path)).map (fun x => x.id) ↔
        (m ∈ (n :: path).map (fun x => x.id) ∨ Reaches pop n.id m)) ∧
      ((subtree_rows pop n.id (n :: path)).map (fun x => x.id)).Nodup := by
  obtain ⟨rank, hrk⟩ := hac
  have hac2 : Acyclic pop := ⟨rank, hrk⟩
  rcases ancestor_path_spec hrk hpc hn (rank_filter_le_length pop rank _) with
    ⟨path, hpath, hmem, _⟩
  have hanc : ∀ m, m ∈ (pop.filter (fun x =>
      decide (x.id ∈ (n :: path).map (fun a => a.id)))).map (fun x => x.id) ↔
      m ∈ (n :: path).map (fun a => a.id) := by
    intro m
    constructor
    · intro hm
      rcases List.mem_map.mp hm with ⟨x, hx, rfl⟩
      have := (List.mem_filter.mp hx).2
      simpa using this
    · intro hm
      rcases List.mem_map.mp hm with ⟨a, ha, rfl⟩
      refine List.mem_map_of_mem (fun x => x.id) (List.mem_filter.mpr ⟨(hmem a ha).1, ?_⟩)
      simpa using List.mem_map_of_mem (fun x => x.id) ha
  have hdesc : ∀ m, m ∈ (cteAcc pop pop.length (childrenOf pop n.id)).map
      (fun x => x.id) ↔ Reaches pop n.id m := by
    intro m
    rw [List.mem_map]
    constructor
    · rintro ⟨x, hx, rfl⟩
      exact (descendants_cte_mem_iff hac2).mp ⟨x, hx, rfl⟩
    · intro h
      rcases (descendants_cte_mem_iff hac2).mpr h with ⟨x, hx, hxid⟩
      exact ⟨x, hx, hxid⟩
  have hdisj : ∀ m, m ∈ (n :: path).map (fun a => a.id) →
      Reaches pop n.id m → False := by
    intro m hm hreach
    rcases List.mem_map.mp hm with ⟨a, ha, rfl⟩
    rcases (hmem a ha).2 with rfl | hup
    · exact Reaches.irrefl hac2 a.id hreach
    · exact Reaches.irrefl hac2 a.id (Reaches.trans hup hreach)
  refine ⟨path, hpath, ?_, ?_, ?_⟩
  · rw [resolve_subtree, hpath]
    rfl
  · intro m
    rw [subtree_rows_eq, List.map_append, List.mem_append, hanc, hdesc]
  · rw [subtree_rows_eq, List.map_append, List.nodup_append]
    refine ⟨nodupIds_filter hnd _, ?_, ?_⟩
    · exact nodupIds_cteAcc hnd (nodupIds_childrenOf hnd _)
        (fun y hy => (mem_childrenOf.mp hy).1) (noReenter_childrenOf hnd hac2 n.id) _
    · intro m hma hmb
      exact hdisj m ((hanc m).mp hma) ((hdesc m).mp hmb)

/-- C1 (witness): for node 2 of pop4 the ancestor path is [2, 1]; the
subtree row ids are exactly {1, 2, 4}, each occurring once. -/
theorem claim_C1_witness :
    ((subtree_rows pop4 2
        [{ id := 2, parent_id := some 1, raw_text := "t2" },
         { id := 1, parent_id := none, raw_text := "t1" }]).map
      (fun x => x.id)).Nodup ∧
    (subtree_rows pop4 2
        [{ id := 2, parent_id := some 1, raw_text := "t2" },
         { id := 1, parent_id := none, raw_text := "t1" }]).map (fun x => x.id) =
      [1, 2, 4] := by
  obtain ⟨path, hpath, _, _, hnodup⟩ :=
    claim_C1 pop4 { id := 2, parent_id := some 1, raw_text := "t2" } (by decide)
      (by decide) ⟨fun i => i, rankOk_pop4⟩ parentClosed_pop4
  have hconc : ancestor_path pop4 pop4.length
      { id := 2, parent_id := some 1, raw_text := "t2" } =
      some [{ id := 2, parent_id := some 1, raw_text := "t2" },
            { id := 1, parent_id := none, raw_text := "t1" }] := by
    decide
  rw [hconc] at hpath
  have htail := List.cons.inj (Option.some.inj hpath)
  rw [← htail.2] at hnodup
  exact ⟨hnodup, by decide⟩

/-- C5: on an acyclic, parent-closed population with unique ids,
resolve_full_tree first resolves the true root by walking parent links
upward from N until a row with null parent_id is reached, then returns the
closure of the child relation seeded at that root: the row ids are exactly
the root's id together with everything reachable from it, so the result
always contains the true root — also when N itself has no parent, in which
case the walk returns N at once. -/
theorem claim_C5 (pop : List RawNode) (n : RawNode) (hn : n ∈ pop)
    (hnd : NodupIds pop) (hac : Acyclic pop) (hpc : ParentClosed pop) :
    ∃ r, walk_to_root pop pop.length n = some r ∧ r ∈ pop ∧
      r.parent_id = none ∧ (r = n ∨ Reaches pop r.id n.id) ∧
      resolve_full_tree pop n = some (build_flat_tree (full_tree_rows pop r.id)) ∧
      (∀ m, m ∈ (full_tree_rows pop r.id).map (fun x => x.id) ↔
        (m = r.id ∨ Reaches pop r.id m)) ∧
      r.id ∈ (full_tree_rows pop r.id).map (fun x => x.id) := by
  obtain ⟨rank, hrk⟩ := hac
  have hac2 : Acyclic pop := ⟨rank, hrk⟩
  rcases walk_to_root_spec hrk hpc hn (rank_filter_le_length pop rank _) with
    ⟨r, hwalk, hrpop, hrpar, hrn⟩
  have hfilter : pop.filter (fun x => decide (x.id = r.id)) = [r] :=
    filter_id_eq_singleton hnd hrpop
  have hsub1 : ∀ y ∈ [r], y ∈ pop := by
    intro y hy
    rcases List.mem_singleton.mp hy with rfl
    exact hrpop
  have hiff : ∀ m, m ∈ (full_tree_rows pop r.id).map (fun x => x.id) ↔
      (m = r.id ∨ Reaches pop r.id m) := by
    intro m
    rw [full_tree_rows, hfilter, mem_map_id_insertionSort]
    constructor
    · rintro ⟨x, hx, rfl⟩
      rcases (mem_cteAcc_iff hac2 hsub1).mp hx with ⟨d, hxd⟩
      rcases layer_sound hxd with ⟨_, hxfr⟩ | ⟨_, b, hbfr, hreach⟩
      · rcases List.mem_singleton.mp hxfr with rfl
        exact Or.inl rfl
      · rcases List.mem_singleton.mp hbfr with rfl
        exact Or.inr hreach
    · rintro (rfl | hreach)
      · exact ⟨r, (mem_cteAcc_iff hac2 hsub1).mpr ⟨0, List.mem_singleton_self r⟩, rfl⟩
      · rcases layer_complete hreach with ⟨d, x, hx, hxid⟩
        refine ⟨x, (mem_cteAcc_iff hac2 hsub1).mpr ⟨d + 1, ?_⟩, hxid⟩
        rw [layer_succ_left, cteStep_singleton]
        exact hx
  refine ⟨r, hwalk, hrpop, hrpar, hrn, ?_, hiff, (hiff r.id).mpr (Or.inl rfl)⟩
  rw [resolve_full_tree, hwalk]
  rfl

/-- C5 (witness): for node 4 of pop4 the walk resolves the true root 1, and
the full-tree row ids are exactly [1, 2, 3, 4], containing the root. -/
theorem claim_C5_witness :
    1 ∈ (full_tree_rows pop4 1).map (fun x => x.id) ∧
    (full_tree_rows pop4 1).map (fun x => x.id) = [1, 2, 3, 4] := by
  obtain ⟨r, hwalk, _, _, _, _, _, hmem⟩ :=
    claim_C5 pop4 { id := 4, parent_id := some 2, raw_text := "t4" } (by decide)
      (by decide) ⟨fun i => i, rankOk_pop4⟩ parentClosed_pop4
  have hconc : walk_to_root pop4 pop4.length
      { id := 4, parent_id := some 2, raw_text := "t4" } =
      some { id := 1, parent_id := none, raw_text := "t1" } := by
    decide
  rw [hconc] at hwalk
  have hr := Option.some.inj hwalk
  rw [← hr] at hmem
  exact ⟨hmem, by decide⟩

end OpenContracts
